import Mathlib

/-
Shallow embedding of `src/index/txospenderindex.cpp` (TxoSpenderIndex).

Modelling choices, each tied to the source:
- `COutPoint` is (txid as a natural number, output index `n`).  In the source the
  txid is a 256-bit hash and `n` a `uint32_t`; machine-width reductions are made
  explicit with `% 2 ^ w` where the source performs machine arithmetic.
- `CDiskTxPos` is the triple (block file number, block byte offset, transaction
  byte offset inside the block), exactly the fields used by the index.
- A transaction is modelled by the data the index consumes: its id (`GetHash`),
  the list of spent-output references of its inputs (`vin[i].prevout`), whether
  it is a coinbase, and its serialized size (`GetSerializeSize(TX_WITH_WITNESS)`).
  The latter three are attributes computed by code outside this translation unit,
  so they are carried as fields.
- The LevelDB database restricted to the single key prefix `DB_TXOSPENDERINDEX`
  is a map from the 64-bit bucket key to a record state: absent, or a stored
  candidate list together with a corruption flag (`m_db->Exists` sees the record
  but `m_db->Read` fails when the flag is set).
- A `CDBBatch` is the list of `Write`/`Erase` operations accumulated by one call;
  `WriteBatch` applies them in order, later operations on a key overriding
  earlier ones, as in LevelDB.
- The block archive (`OpenBlockFile` + header/transaction deserialization) is a
  function from a position to `Except String Transaction`; an `error` value
  stands for any I/O or deserialization failure (null file or thrown exception).
-/

/-- A spent-output reference: `COutPoint` = (transaction hash, output index). -/
structure COutPoint where
  hash : Nat
  n : Nat
deriving DecidableEq

/-- `CDiskTxPos`: block-file number, byte offset of the block in that file
(`FlatFilePos`), and byte offset of the transaction inside the block. -/
structure CDiskTxPos where
  nFile : Int
  nPos : Nat
  nTxOffset : Nat
deriving DecidableEq

/-- The data of a transaction consumed by the index: its id (`GetHash`), the
`prevout` of each input, its coinbase flag and its serialized size. -/
structure Transaction where
  txid : Nat
  vin : List COutPoint
  isCoinBase : Bool
  size : Nat
deriving DecidableEq

/-- `CreateIndex` (txospenderindex.cpp line 29): the 64-bit bucket key of an
outpoint, `vout.hash.ToUint256().GetUint64(0) + vout.n` in `uint64_t`
arithmetic.  `GetUint64(0)` is the low 64 bits of the hash, `vout.n` is a
`uint32_t`, and the sum wraps modulo `2 ^ 64`. -/
def CreateIndex (vout : COutPoint) : Nat :=
  (vout.hash % 2 ^ 64 + vout.n % 2 ^ 32) % 2 ^ 64

/-- State of one bucket record in the database. -/
inductive DBVal where
  | absent
  | stored (positions : List CDiskTxPos) (corrupt : Bool)
deriving DecidableEq

/-- The database restricted to the `DB_TXOSPENDERINDEX` prefix: bucket key to
record state. -/
def DB := Nat → DBVal

/-- The empty database. -/
def emptyDB : DB := fun _ => .absent

/-- `m_db->Exists(key)`. -/
def dbExists (db : DB) (k : Nat) : Bool :=
  match db k with
  | .absent => false
  | .stored _ _ => true

/-- `m_db->Read(key, positions)`: succeeds exactly on readable stored records. -/
def dbRead (db : DB) (k : Nat) : Option (List CDiskTxPos) :=
  match db k with
  | .stored l false => some l
  | .stored _ true => none
  | .absent => none

/-- The candidate vector the source code ends up with after reading: the stored
list when the record is present and readable, `[]` when the record is absent or
the read fails (the vector keeps its initial empty value). -/
def readPositions (db : DB) (k : Nat) : List CDiskTxPos :=
  (dbRead db k).getD []

/-- One operation of a `CDBBatch`. -/
inductive BatchOp where
  | write (key : Nat) (positions : List CDiskTxPos)
  | erase (key : Nat)
deriving DecidableEq

/-- The key an operation touches. -/
def opKey : BatchOp → Nat
  | .write k _ => k
  | .erase k => k

/-- Effect of one batch operation on the database. -/
def applyOp (db : DB) : BatchOp → DB
  | .write k l => fun q => if q = k then .stored l false else db q
  | .erase k => fun q => if q = k then .absent else db q

/-- `m_db->WriteBatch(batch)`: apply the accumulated operations in order. -/
def applyBatch (db : DB) (ops : List BatchOp) : DB :=
  ops.foldl applyOp db

/-- The block archive: reading at a position either yields the transaction
stored there or fails (missing file, I/O error, deserialization error). -/
def Archive := CDiskTxPos → Except String Transaction

/-- `TxoSpenderIndex::ReadTransaction` (lines 138-154): open the block file at
the position, deserialize; any failure (null file or exception) returns
failure instead of propagating. -/
def ReadTransaction (archive : Archive) (pos : CDiskTxPos) : Option Transaction :=
  match archive pos with
  | .ok tx => some tx
  | .error _ => none

/-- The disambiguation predicate used on the erase path: the candidate's
transaction is readable and has an input whose `prevout` equals the outpoint. -/
def candidateMatches (archive : Archive) (outpoint : COutPoint) (pos : CDiskTxPos) : Bool :=
  match ReadTransaction archive pos with
  | some tx => decide (outpoint ∈ tx.vin)
  | none => false

/-- Batch operations accumulated by `TxoSpenderIndex::WriteSpenderInfos`
(lines 35-52): for each item, read the committed bucket (empty on absence or
read failure), and append the position if it is not already present. -/
def writeSpenderOps (db : DB) : List (COutPoint × CDiskTxPos) → List BatchOp
  | [] => []
  | (outpoint, pos) :: rest =>
    let key := CreateIndex outpoint
    let positions := if dbExists db key then (dbRead db key).getD [] else []
    (if pos ∈ positions then [] else [.write key (positions ++ [pos])]) ++
      writeSpenderOps db rest

/-- `TxoSpenderIndex::WriteSpenderInfos`: accumulate the batch against the
committed state, then commit it. -/
def WriteSpenderInfos (db : DB) (items : List (COutPoint × CDiskTxPos)) : DB :=
  applyBatch db (writeSpenderOps db items)

/-- The loop of `EraseSpenderInfos` lines 64-74: `index` starts at "none" and
is overwritten by every matching candidate, so the last match wins. -/
def findSpendingIndexAux (archive : Archive) (outpoint : COutPoint) :
    List CDiskTxPos → Nat → Option Nat → Option Nat
  | [], _, acc => acc
  | p :: rest, i, acc =>
    findSpendingIndexAux archive outpoint rest (i + 1)
      (if candidateMatches archive outpoint p then some i else acc)

/-- Index of the candidate whose transaction spends `outpoint` (the last one,
mirroring the overwritten loop variable of the source). -/
def findSpendingIndex (archive : Archive) (outpoint : COutPoint)
    (positions : List CDiskTxPos) : Option Nat :=
  findSpendingIndexAux archive outpoint positions 0 none

/-- Batch operations accumulated by `TxoSpenderIndex::EraseSpenderInfos`
(lines 55-85): read the bucket; with more than one candidate, remove the one
whose transaction spends the outpoint (no operation when none matches);
otherwise erase the record unconditionally. -/
def eraseSpenderOps (db : DB) (archive : Archive) : List COutPoint → List BatchOp
  | [] => []
  | outpoint :: rest =>
    let key := CreateIndex outpoint
    let positions := readPositions db key
    (if positions.length > 1 then
      match findSpendingIndex archive outpoint positions with
      | some i => [.write key (positions.eraseIdx i)]
      | none => []
    else [.erase key]) ++ eraseSpenderOps db archive rest

/-- `TxoSpenderIndex::EraseSpenderInfos`: accumulate the batch against the
committed state, then commit it. -/
def EraseSpenderInfos (db : DB) (archive : Archive) (items : List COutPoint) : DB :=
  applyBatch db (eraseSpenderOps db archive items)

/-- The part of `interfaces::BlockInfo` the index reads: the block file number,
the byte offset of the block data, and the block's transactions. -/
structure BlockInfo where
  file_number : Int
  data_pos : Nat
  vtx : List Transaction

/-- Modelled from the spec: the size of the block's transaction-count field,
i.e. `GetSizeOfCompactSize` of serialize.h (outside this translation unit),
the standard Bitcoin CompactSize width. -/
def GetSizeOfCompactSize (n : Nat) : Nat :=
  if n < 253 then 1 else if n < 2 ^ 16 then 3 else if n < 2 ^ 32 then 5 else 9

/-- The loop of `CustomAppend` lines 93-100: walk the transactions keeping a
running offset; each non-coinbase transaction contributes one item per input at
the current offset; every transaction's serialized size advances the offset. -/
def appendItemsAux (file : Int) (dataPos : Nat) : Nat → List Transaction →
    List (COutPoint × CDiskTxPos)
  | _, [] => []
  | off, tx :: rest =>
    (if tx.isCoinBase then []
     else tx.vin.map fun inp => (inp, ⟨file, dataPos, off⟩)) ++
      appendItemsAux file dataPos (off + tx.size) rest

/-- The items vector built by `TxoSpenderIndex::CustomAppend` (lines 87-102),
starting right after the transaction-count field. -/
def customAppendItems (block : BlockInfo) : List (COutPoint × CDiskTxPos) :=
  appendItemsAux block.file_number block.data_pos
    (GetSizeOfCompactSize block.vtx.length) block.vtx

/-- `TxoSpenderIndex::CustomAppend`: write the collected items. -/
def CustomAppend (db : DB) (block : BlockInfo) : DB :=
  WriteSpenderInfos db (customAppendItems block)

/-- The items vector built per disconnected block in `CustomRewind`
(lines 117-126): the `prevout` of every input of every non-coinbase
transaction, in block order. -/
def blockOutpoints (vtx : List Transaction) : List COutPoint :=
  (vtx.map fun tx => if tx.isCoinBase then [] else tx.vin).flatten

/-- The per-block body of `CustomRewind`: erase the spender info of every
non-coinbase input of the block. -/
def removeBlock (db : DB) (archive : Archive) (block : BlockInfo) : DB :=
  EraseSpenderInfos db archive (blockOutpoints block.vtx)

/-- The heights visited by the do-while loop of `TxoSpenderIndex::CustomRewind`
(lines 111-133): process the current tip, step to its parent, stop when the new
tip is reached (the driver guarantees the new tip is strictly below the current
tip; the `current = 0` guard only makes the function total outside that
precondition). -/
def rewindHeights (current new : Nat) : List Nat :=
  if current - 1 = new ∨ current = 0 then [current]
  else current :: rewindHeights (current - 1) new
termination_by current
decreasing_by
  simp only [not_or] at *
  omega

/-- `TxoSpenderIndex::CustomRewind` (lines 105-136): undo blocks one at a time
from the current tip down, stopping once the parent of the block just undone is
the new tip. -/
def CustomRewind (getBlock : Nat → BlockInfo) (archive : Archive) (db : DB)
    (current new : Nat) : DB :=
  let db1 := removeBlock db archive (getBlock current)
  if current - 1 = new ∨ current = 0 then db1
  else CustomRewind getBlock archive db1 (current - 1) new
termination_by current
decreasing_by
  simp only [not_or] at *
  omega

/-- The candidate loop of `FindSpender` lines 164-173: for each position, if
the transaction is readable and one of its inputs spends the outpoint, return
its id, else try the next candidate. -/
def findSpenderLoop (archive : Archive) (txo : COutPoint) :
    List CDiskTxPos → Option Nat
  | [] => none
  | pos :: rest =>
    match ReadTransaction archive pos with
    | some tx => if txo ∈ tx.vin then some tx.txid else findSpenderLoop archive txo rest
    | none => findSpenderLoop archive txo rest

/-- `TxoSpenderIndex::FindSpender` (lines 156-175): read the candidate list for
the outpoint's bucket key (failure means not found), then scan the candidates. -/
def FindSpender (db : DB) (archive : Archive) (txo : COutPoint) : Option Nat :=
  match dbRead db (CreateIndex txo) with
  | none => none
  | some positions => findSpenderLoop archive txo positions

/-- Stated from the spec's words, for comparison with `FindSpender`: the first
candidate in stored order whose archived transaction has an input whose
spent-output-reference equals the outpoint; its transaction's id is returned,
and the absence of the record or of any readable match gives not-found. -/
def findSpenderSpec (db : DB) (archive : Archive) (txo : COutPoint) : Option Nat :=
  match dbRead db (CreateIndex txo) with
  | none => none
  | some positions =>
    (positions.find? (candidateMatches archive txo)).bind
      fun pos => (ReadTransaction archive pos).map Transaction.txid

/-- Stated from the spec's words, for comparison with `customAppendItems`: the
transaction offset of the i-th transaction of a block is the size of the
transaction-count field plus the serialized sizes of all preceding
transactions. -/
def txOffsetAt (vtx : List Transaction) (i : Nat) : Nat :=
  GetSizeOfCompactSize vtx.length + ((vtx.take i).map Transaction.size).sum

/-- Stated from the spec's words, for comparison with `customAppendItems`: one
entry per input of each non-coinbase transaction in block order, each carrying
the transaction's offset triple. -/
def specAppendItems (block : BlockInfo) : List (COutPoint × CDiskTxPos) :=
  (block.vtx.enum.map fun p =>
    if p.2.isCoinBase then []
    else p.2.vin.map fun inp =>
      (inp, ⟨block.file_number, block.data_pos, txOffsetAt block.vtx p.1⟩)).flatten

/-- The last batch operation touching a key, which decides that key's state
after the batch commits. -/
def lastOpOn (ops : List BatchOp) (k : Nat) : Option BatchOp :=
  ops.reverse.find? fun op => decide (opKey op = k)

theorem readPositions_eq_if (db : DB) (k : Nat) :
    (if dbExists db k then (dbRead db k).getD [] else []) = readPositions db k := by
  cases h : db k with
  | absent => simp [dbExists, dbRead, readPositions, h]
  | stored l c => cases c <;> simp [dbExists, dbRead, readPositions, h]

theorem writeSpenderOps_cons (db : DB) (outpoint : COutPoint) (pos : CDiskTxPos)
    (rest : List (COutPoint × CDiskTxPos)) :
    writeSpenderOps db ((outpoint, pos) :: rest) =
      (if pos ∈ readPositions db (CreateIndex outpoint) then []
       else [.write (CreateIndex outpoint)
              (readPositions db (CreateIndex outpoint) ++ [pos])]) ++
        writeSpenderOps db rest := by
  rw [writeSpenderOps, readPositions_eq_if]

theorem writeSpenderOps_append (db : DB) (a b : List (COutPoint × CDiskTxPos)) :
    writeSpenderOps db (a ++ b) = writeSpenderOps db a ++ writeSpenderOps db b := by
  induction a with
  | nil => simp [writeSpenderOps]
  | cons hd tl ih =>
    obtain ⟨o, p⟩ := hd
    rw [List.cons_append, writeSpenderOps_cons, writeSpenderOps_cons, ih,
      List.append_assoc]

theorem eraseSpenderOps_cons (db : DB) (archive : Archive) (outpoint : COutPoint)
    (rest : List COutPoint) :
    eraseSpenderOps db archive (outpoint :: rest) =
      (if (readPositions db (CreateIndex outpoint)).length > 1 then
        match findSpendingIndex archive outpoint (readPositions db (CreateIndex outpoint)) with
        | some i => [.write (CreateIndex outpoint)
            ((readPositions db (CreateIndex outpoint)).eraseIdx i)]
        | none => []
      else [.erase (CreateIndex outpoint)]) ++ eraseSpenderOps db archive rest := rfl

theorem eraseSpenderOps_append (db : DB) (archive : Archive) (a b : List COutPoint) :
    eraseSpenderOps db archive (a ++ b) =
      eraseSpenderOps db archive a ++ eraseSpenderOps db archive b := by
  induction a with
  | nil => simp [eraseSpenderOps]
  | cons hd tl ih =>
    rw [List.cons_append, eraseSpenderOps_cons, eraseSpenderOps_cons, ih,
      List.append_assoc]

theorem lastOpOn_nil (k : Nat) : lastOpOn [] k = none := rfl

theorem lastOpOn_append_singleton (ops : List BatchOp) (op : BatchOp) (k : Nat) :
    lastOpOn (ops ++ [op]) k = if opKey op = k then some op else lastOpOn ops k := by
  unfold lastOpOn
  rw [List.reverse_append]
  simp only [List.reverse_singleton, List.singleton_append]
  by_cases h : opKey op = k
  · rw [List.find?_cons_of_pos _ (by simpa using h), if_pos h]
  · rw [List.find?_cons_of_neg _ (by simpa using h), if_neg h]

/-- The state of one key after a batch commits is decided by the last
operation of the batch touching that key. -/
theorem applyBatch_apply (db : DB) (ops : List BatchOp) (k : Nat) :
    applyBatch db ops k =
      match lastOpOn ops k with
      | some (.write _ l) => DBVal.stored l false
      | some (.erase _) => DBVal.absent
      | none => db k := by
  induction ops using List.reverseRecOn with
  | nil => simp [applyBatch, lastOpOn]
  | append_singleton l op ih =>
    have h1 : applyBatch db (l ++ [op]) = applyOp (applyBatch db l) op := by
      simp [applyBatch, List.foldl_append]
    rw [h1, lastOpOn_append_singleton]
    cases op with
    | write k2 ps =>
      by_cases hk : k2 = k
      · subst hk
        simp [applyOp, opKey]
      · simp only [applyOp, opKey, if_neg hk, if_neg (Ne.symm hk)]
        exact ih
    | erase k2 =>
      by_cases hk : k2 = k
      · subst hk
        simp [applyOp, opKey]
      · simp only [applyOp, opKey, if_neg hk, if_neg (Ne.symm hk)]
        exact ih

theorem lastOpOn_singleton (op : BatchOp) (k : Nat) :
    lastOpOn [op] k = if opKey op = k then some op else none := by
  have := lastOpOn_append_singleton [] op k
  simpa [lastOpOn_nil] using this

theorem lastOpOn_append (a b : List BatchOp) (k : Nat) :
    lastOpOn (a ++ b) k =
      match lastOpOn b k with
      | some op => some op
      | none => lastOpOn a k := by
  induction b using List.reverseRecOn with
  | nil => simp [lastOpOn_nil]
  | append_singleton l op ih =>
    rw [← List.append_assoc, lastOpOn_append_singleton, lastOpOn_append_singleton]
    by_cases h : opKey op = k
    · simp [h]
    · simp only [if_neg h]
      exact ih

theorem lastOpOn_writeOps_of_not_touched (db : DB) (items : List (COutPoint × CDiskTxPos))
    (k : Nat) (h : ∀ it ∈ items, CreateIndex it.1 ≠ k) :
    lastOpOn (writeSpenderOps db items) k = none := by
  induction items with
  | nil => simp [writeSpenderOps, lastOpOn_nil]
  | cons hd tl ih =>
    obtain ⟨o, p⟩ := hd
    rw [writeSpenderOps_cons, lastOpOn_append,
      ih fun it hit => h it (List.mem_cons_of_mem _ hit)]
    by_cases hp : p ∈ readPositions db (CreateIndex o)
    · simp [hp, lastOpOn_nil]
    · have hko : CreateIndex o ≠ k := h (o, p) (List.mem_cons_self _ _)
      simp [hp, lastOpOn_singleton, opKey, hko]

theorem lastOpOn_eraseOps_of_not_touched (db : DB) (archive : Archive)
    (outs : List COutPoint) (k : Nat) (h : ∀ o ∈ outs, CreateIndex o ≠ k) :
    lastOpOn (eraseSpenderOps db archive outs) k = none := by
  induction outs with
  | nil => simp [eraseSpenderOps, lastOpOn_nil]
  | cons hd tl ih =>
    rw [eraseSpenderOps_cons, lastOpOn_append,
      ih fun o ho => h o (List.mem_cons_of_mem _ ho)]
    have hko : CreateIndex hd ≠ k := h hd (List.mem_cons_self _ _)
    by_cases hlen : (readPositions db (CreateIndex hd)).length > 1
    · rw [if_pos hlen]
      cases hfi : findSpendingIndex archive hd (readPositions db (CreateIndex hd)) with
      | none => simp [lastOpOn_nil]
      | some i => simp [lastOpOn_singleton, opKey, hko]
    · rw [if_neg hlen]
      simp [lastOpOn_singleton, opKey, hko]

theorem writeSpenderOps_eq_nil (db : DB) (items : List (COutPoint × CDiskTxPos))
    (h : ∀ it ∈ items, it.2 ∈ readPositions db (CreateIndex it.1)) :
    writeSpenderOps db items = [] := by
  induction items with
  | nil => rfl
  | cons hd tl ih =>
    obtain ⟨o, p⟩ := hd
    rw [writeSpenderOps_cons,
      if_pos (h (o, p) (List.mem_cons_self _ _)),
      List.nil_append]
    exact ih fun it hit => h it (List.mem_cons_of_mem _ hit)

theorem findSpendingIndexAux_append (archive : Archive) (outpoint : COutPoint)
    (l1 l2 : List CDiskTxPos) (i : Nat) (acc : Option Nat) :
    findSpendingIndexAux archive outpoint (l1 ++ l2) i acc =
      findSpendingIndexAux archive outpoint l2 (i + l1.length)
        (findSpendingIndexAux archive outpoint l1 i acc) := by
  induction l1 generalizing i acc with
  | nil => simp [findSpendingIndexAux]
  | cons hd tl ih =>
    rw [List.cons_append, findSpendingIndexAux, findSpendingIndexAux, ih]
    simp [Nat.add_assoc, Nat.add_comm 1 tl.length]

theorem findSpendingIndexAux_of_none (archive : Archive) (outpoint : COutPoint)
    (l : List CDiskTxPos) (i : Nat) (acc : Option Nat)
    (h : ∀ p ∈ l, candidateMatches archive outpoint p = false) :
    findSpendingIndexAux archive outpoint l i acc = acc := by
  induction l generalizing i acc with
  | nil => rfl
  | cons hd tl ih =>
    rw [findSpendingIndexAux, h hd (List.mem_cons_self _ _), if_neg (by simp)]
    exact ih _ _ fun p hp => h p (List.mem_cons_of_mem _ hp)

theorem findSpendingIndex_append_last (archive : Archive) (outpoint : COutPoint)
    (base : List CDiskTxPos) (pm : CDiskTxPos)
    (h : candidateMatches archive outpoint pm = true) :
    findSpendingIndex archive outpoint (base ++ [pm]) = some base.length := by
  rw [findSpendingIndex, findSpendingIndexAux_append]
  rw [findSpendingIndexAux, h, if_pos rfl, findSpendingIndexAux]
  simp

theorem findSpendingIndex_unique (archive : Archive) (outpoint : COutPoint)
    (l1 : List CDiskTxPos) (p : CDiskTxPos) (l2 : List CDiskTxPos)
    (h1 : ∀ q ∈ l1, candidateMatches archive outpoint q = false)
    (hp : candidateMatches archive outpoint p = true)
    (h2 : ∀ q ∈ l2, candidateMatches archive outpoint q = false) :
    findSpendingIndex archive outpoint (l1 ++ p :: l2) = some l1.length := by
  rw [findSpendingIndex, findSpendingIndexAux_append,
    findSpendingIndexAux_of_none _ _ _ _ _ h1, findSpendingIndexAux, hp, if_pos rfl,
    findSpendingIndexAux_of_none _ _ _ _ _ h2]
  simp

theorem eraseIdx_append_cons {α : Type} (l1 : List α) (a : α) (l2 : List α) :
    (l1 ++ a :: l2).eraseIdx l1.length = l1 ++ l2 := by
  induction l1 with
  | nil => simp [List.eraseIdx]
  | cons b t ih => simp [List.eraseIdx, ih]

theorem map_fst_appendItemsAux (file : Int) (dataPos : Nat) (off : Nat)
    (vtx : List Transaction) :
    (appendItemsAux file dataPos off vtx).map Prod.fst = blockOutpoints vtx := by
  induction vtx generalizing off with
  | nil => rfl
  | cons tx rest ih =>
    rw [appendItemsAux, blockOutpoints, List.map_cons, List.flatten_cons,
      List.map_append, ih]
    by_cases h : tx.isCoinBase
    · simp [h, blockOutpoints]
    · simp [h, blockOutpoints, List.map_map, Function.comp_def]

theorem map_fst_customAppendItems (block : BlockInfo) :
    (customAppendItems block).map Prod.fst = blockOutpoints block.vtx :=
  map_fst_appendItemsAux _ _ _ _

theorem exists_last_key {α : Type} (p : α → Prop) [DecidablePred p] (l : List α) :
    (∀ a ∈ l, ¬ p a) ∨
      ∃ l1 a l2, l = l1 ++ a :: l2 ∧ p a ∧ ∀ b ∈ l2, ¬ p b := by
  induction l using List.reverseRecOn with
  | nil => left; simp
  | append_singleton t x ih =>
    by_cases hx : p x
    · right
      exact ⟨t, x, [], by simp, hx, by simp⟩
    · rcases ih with h | ⟨l1, a, l2, rfl, ha, h2⟩
      · left
        intro b hb
        rcases List.mem_append.mp hb with h' | h'
        · exact h b h'
        · rw [List.mem_singleton.mp h']
          exact hx
      · right
        refine ⟨l1, a, l2 ++ [x], by rw [List.append_assoc, List.cons_append], ha, ?_⟩
        intro b hb
        rcases List.mem_append.mp hb with h' | h'
        · exact h2 b h'
        · rw [List.mem_singleton.mp h']
          exact hx

theorem findSpenderLoop_eq_find (archive : Archive) (txo : COutPoint) :
    ∀ ps : List CDiskTxPos,
      findSpenderLoop archive txo ps =
        (ps.find? (candidateMatches archive txo)).bind
          fun pos => (ReadTransaction archive pos).map Transaction.txid
  | [] => rfl
  | pos :: rest => by
    cases h : ReadTransaction archive pos with
    | some tx =>
      simp only [findSpenderLoop, h]
      by_cases hv : txo ∈ tx.vin
      · rw [if_pos hv, List.find?_cons_of_pos _ (by simp [candidateMatches, h, hv])]
        simp [h, hv]
      · rw [if_neg hv, List.find?_cons_of_neg _ (by simp [candidateMatches, h, hv]),
          findSpenderLoop_eq_find archive txo rest]
    | none =>
      simp only [findSpenderLoop, h]
      rw [List.find?_cons_of_neg _ (by simp [candidateMatches, h]),
        findSpenderLoop_eq_find archive txo rest]

/-- C1: `FindSpender` derives the bucket key, reads the stored candidate list,
and returns the spending transaction (its id) of the first candidate in stored
order whose archived transaction has an input whose spent-output-reference
equals the outpoint; an absent bucket record or the absence of any readable
matching candidate yields not-found.  This is exactly `findSpenderSpec`, the
word-for-word transcription of the spec. -/
theorem c1_findSpender_first_match (db : DB) (archive : Archive) (txo : COutPoint) :
    FindSpender db archive txo = findSpenderSpec db archive txo := by
  rw [FindSpender, findSpenderSpec]
  cases dbRead db (CreateIndex txo) with
  | none => rfl
  | some positions => exact findSpenderLoop_eq_find archive txo positions

theorem enumFrom_map_succ {α : Type} (l : List α) :
    ∀ n : Nat, l.enumFrom (n + 1) = (l.enumFrom n).map fun q => (q.1 + 1, q.2) := by
  induction l with
  | nil => intro n; rfl
  | cons a t ih => intro n; simp [List.enumFrom, ih (n + 1)]

theorem enum_cons_eq {α : Type} (a : α) (l : List α) :
    (a :: l).enum = (0, a) :: l.enum.map fun q => (q.1 + 1, q.2) := by
  have h1 : (a :: l).enum = (0, a) :: l.enumFrom 1 := rfl
  have h2 : l.enumFrom 0 = l.enum := rfl
  rw [h1, ← h2, enumFrom_map_succ l 0]

theorem appendItemsAux_eq_enum (file : Int) (dataPos : Nat) (vtx : List Transaction) :
    ∀ off : Nat, appendItemsAux file dataPos off vtx =
      (vtx.enum.map fun p =>
        if p.2.isCoinBase then []
        else p.2.vin.map fun inp =>
          (inp, ⟨file, dataPos, off + ((vtx.take p.1).map Transaction.size).sum⟩)).flatten := by
  induction vtx with
  | nil => intro off; rfl
  | cons tx rest ih =>
    intro off
    rw [appendItemsAux, enum_cons_eq, List.map_cons, List.flatten_cons, List.map_map]
    have htail : appendItemsAux file dataPos (off + tx.size) rest =
        (rest.enum.map ((fun p =>
          if p.2.isCoinBase then ([] : List (COutPoint × CDiskTxPos))
          else p.2.vin.map fun inp =>
            (inp, ⟨file, dataPos,
              off + (((tx :: rest).take p.1).map Transaction.size).sum⟩)) ∘
          fun q => (q.1 + 1, q.2))).flatten := by
      rw [ih (off + tx.size)]
      congr 1
      apply List.map_congr_left
      rintro ⟨i, t⟩ hq
      simp only [Function.comp_apply, List.take_succ_cons, List.map_cons, List.sum_cons]
      rw [← Nat.add_assoc]
    rw [htail]
    congr 1

/-- C7: the items recorded by `CustomAppend` are one entry per input of each
non-coinbase transaction in block order, each locator carrying a transaction
offset equal to the size of the transaction-count field plus the sum of the
serialized sizes of all preceding transactions (the coinbase contributes no
entries but its size advances later offsets); `CustomAppend` writes exactly
those items. -/
theorem c7_append_items_offsets (block : BlockInfo) :
    customAppendItems block = specAppendItems block ∧
      ∀ db : DB, CustomAppend db block = WriteSpenderInfos db (specAppendItems block) := by
  have h : customAppendItems block = specAppendItems block := by
    rw [customAppendItems, appendItemsAux_eq_enum, specAppendItems]
    rfl
  exact ⟨h, fun db => by rw [CustomAppend, h]⟩

/-- C2 counterexample: the bucket key of an outpoint whose transaction hash is
`2 ^ 64 + 3` equals the bucket key for hash `3`: the derivation ignores every
bit of the transaction identifier above the low 64 bits and involves no keying
material at all, so it is a truncation of the content hash and does not depend
on any 128-bit key, contrary to the claim. -/
theorem c2_counterexample :
    CreateIndex ⟨2 ^ 64 + 3, 4⟩ = CreateIndex ⟨3, 4⟩ ∧ CreateIndex ⟨3, 4⟩ = 7 := by
  constructor <;> decide

/-- C2 amended: the bucket key is derived from the outpoint alone, with no
keying material: it depends only on the low 64 bits of the transaction
identifier (a truncation of the content hash), and in the non-wrapping case it
is exactly that truncated identifier plus the output index. -/
theorem c2_key_is_truncation :
    (∀ h1 h2 n : Nat, h1 % 2 ^ 64 = h2 % 2 ^ 64 →
      CreateIndex ⟨h1, n⟩ = CreateIndex ⟨h2, n⟩) ∧
    (∀ h n : Nat, n < 2 ^ 32 → h % 2 ^ 64 + n < 2 ^ 64 →
      CreateIndex ⟨h, n⟩ = h % 2 ^ 64 + n) := by
  constructor
  · intro h1 h2 n he
    simp only [CreateIndex, he]
  · intro h n hn hlt
    simp only [CreateIndex]
    rw [Nat.mod_eq_of_lt hn, Nat.mod_eq_of_lt hlt]

theorem c2_key_is_truncation_witness :
    CreateIndex ⟨2 ^ 64 + 3, 4⟩ = (2 ^ 64 + 3) % 2 ^ 64 + 4 :=
  c2_key_is_truncation.2 (2 ^ 64 + 3) 4 (by decide) (by decide)

/-- C8: any archive failure makes `ReadTransaction` return not-found rather
than propagating an error; both callers treat an unreadable candidate as a
non-match and continue with the remaining candidates; and when no stored
candidate is readable, `FindSpender` returns not-found. -/
theorem c8_read_failures_are_local :
    (∀ (archive : Archive) (pos : CDiskTxPos) (e : String),
      archive pos = .error e → ReadTransaction archive pos = none) ∧
    (∀ (archive : Archive) (txo : COutPoint) (pos : CDiskTxPos)
      (rest : List CDiskTxPos), ReadTransaction archive pos = none →
      findSpenderLoop archive txo (pos :: rest) = findSpenderLoop archive txo rest) ∧
    (∀ (archive : Archive) (outpoint : COutPoint) (pos : CDiskTxPos),
      ReadTransaction archive pos = none →
      candidateMatches archive outpoint pos = false) ∧
    (∀ (db : DB) (archive : Archive) (txo : COutPoint) (ps : List CDiskTxPos),
      dbRead db (CreateIndex txo) = some ps →
      (∀ p ∈ ps, ReadTransaction archive p = none) →
      FindSpender db archive txo = none) := by
  refine ⟨?_, ?_, ?_, ?_⟩
  · intro archive pos e he
    rw [ReadTransaction, he]
  · intro archive txo pos rest h
    simp only [findSpenderLoop, h]
  · intro archive outpoint pos h
    rw [candidateMatches, h]
  · intro db archive txo ps hread hall
    rw [FindSpender, hread]
    clear hread
    revert hall
    induction ps with
    | nil => intro hall; rfl
    | cons p rest ih =>
      intro hall
      simp only [findSpenderLoop, hall p (List.mem_cons_self _ _)]
      exact ih fun q hq => hall q (List.mem_cons_of_mem _ hq)

theorem c8_read_failures_are_local_witness :
    FindSpender
      (fun k => if k = 5 then DBVal.stored [⟨0, 0, 0⟩] false else .absent)
      (fun _ => .error "io failure") ⟨5, 0⟩ = none :=
  c8_read_failures_are_local.2.2.2
    (fun k => if k = 5 then DBVal.stored [⟨0, 0, 0⟩] false else .absent)
    (fun _ => .error "io failure") ⟨5, 0⟩ [⟨0, 0, 0⟩] (by decide)
    (fun p _ => rfl)

/-- C9: `WriteSpenderInfos` reads each item's bucket from the committed state,
not from the pending batch; when two items of one call share a bucket key, the
batch holds one write per item, each equal to the committed candidates plus
that item's locator alone, so the later write wins at commit and the earlier
item's locator is absent from the final bucket. -/
theorem c9_batch_reads_committed_state (db : DB) (o1 : COutPoint) (p1 : CDiskTxPos)
    (o2 : COutPoint) (p2 : CDiskTxPos)
    (hkey : CreateIndex o1 = CreateIndex o2) (hne : p1 ≠ p2)
    (h1 : p1 ∉ readPositions db (CreateIndex o2))
    (h2 : p2 ∉ readPositions db (CreateIndex o2)) :
    writeSpenderOps db [(o1, p1), (o2, p2)] =
      [.write (CreateIndex o2) (readPositions db (CreateIndex o2) ++ [p1]),
       .write (CreateIndex o2) (readPositions db (CreateIndex o2) ++ [p2])] ∧
    WriteSpenderInfos db [(o1, p1), (o2, p2)] (CreateIndex o2) =
      .stored (readPositions db (CreateIndex o2) ++ [p2]) false ∧
    p1 ∉ readPositions db (CreateIndex o2) ++ [p2] := by
  have hops : writeSpenderOps db [(o1, p1), (o2, p2)] =
      [.write (CreateIndex o2) (readPositions db (CreateIndex o2) ++ [p1]),
       .write (CreateIndex o2) (readPositions db (CreateIndex o2) ++ [p2])] := by
    rw [writeSpenderOps_cons, writeSpenderOps_cons, hkey, if_neg h1, if_neg h2]
    rfl
  refine ⟨hops, ?_, ?_⟩
  · rw [WriteSpenderInfos, hops]
    simp [applyBatch, applyOp]
  · simp only [List.mem_append, List.mem_singleton]
    push_neg
    exact ⟨h1, hne⟩

theorem c9_batch_reads_committed_state_witness :
    WriteSpenderInfos emptyDB [(⟨0, 1⟩, ⟨0, 0, 1⟩), (⟨1, 0⟩, ⟨0, 0, 11⟩)]
      (CreateIndex ⟨1, 0⟩) = .stored [⟨0, 0, 11⟩] false :=
  (c9_batch_reads_committed_state emptyDB ⟨0, 1⟩ ⟨0, 0, 1⟩ ⟨1, 0⟩ ⟨0, 0, 11⟩
    (by decide) (by decide) (by decide) (by decide)).2.1

/-- C10: on the append path, when a bucket record exists but reading it fails,
`WriteSpenderInfos` proceeds with an empty candidate list: the batch gets a
write replacing the stored bucket by a list holding only the new locator
(previously stored candidates are dropped), the remaining items are still
processed, and the batch is committed. -/
theorem c10_corrupt_record_overwritten (db : DB) (outpoint : COutPoint)
    (pos : CDiskTxPos) (l : List CDiskTxPos)
    (rest : List (COutPoint × CDiskTxPos))
    (hc : db (CreateIndex outpoint) = .stored l true) :
    writeSpenderOps db ((outpoint, pos) :: rest) =
      .write (CreateIndex outpoint) [pos] :: writeSpenderOps db rest ∧
    WriteSpenderInfos db [(outpoint, pos)] (CreateIndex outpoint) =
      .stored [pos] false := by
  have hrp : readPositions db (CreateIndex outpoint) = [] := by
    rw [readPositions, dbRead, hc]
    rfl
  have hops : writeSpenderOps db ((outpoint, pos) :: rest) =
      .write (CreateIndex outpoint) [pos] :: writeSpenderOps db rest := by
    rw [writeSpenderOps_cons, hrp]
    simp
  refine ⟨hops, ?_⟩
  have hops1 := hops
  rw [WriteSpenderInfos]
  have : writeSpenderOps db [(outpoint, pos)] = [.write (CreateIndex outpoint) [pos]] := by
    rw [writeSpenderOps_cons, hrp]
    simp [writeSpenderOps]
  rw [this]
  simp [applyBatch, applyOp]

theorem c10_corrupt_record_overwritten_witness :
    WriteSpenderInfos (fun k => if k = 9 then DBVal.stored [⟨1, 1, 1⟩] true else .absent)
      [(⟨9, 0⟩, ⟨0, 0, 1⟩)] (CreateIndex ⟨9, 0⟩) = .stored [⟨0, 0, 1⟩] false :=
  (c10_corrupt_record_overwritten
    (fun k => if k = 9 then DBVal.stored [⟨1, 1, 1⟩] true else .absent)
    ⟨9, 0⟩ ⟨0, 0, 1⟩ [⟨1, 1, 1⟩] [] (by decide)).2

/-- C5: on removal of one outpoint, a bucket holding zero or one candidate is
erased unconditionally; a bucket holding two or more candidates loses exactly
the candidate whose archived transaction spends the outpoint (the shrunk list
is written back); when no candidate satisfies the predicate the record is left
unchanged and the remaining items are still processed. -/
theorem c5_erase_case_analysis :
    (∀ (db : DB) (archive : Archive) (o : COutPoint),
      (readPositions db (CreateIndex o)).length ≤ 1 →
      EraseSpenderInfos db archive [o] (CreateIndex o) = .absent) ∧
    (∀ (db : DB) (archive : Archive) (o : COutPoint) (l1 : List CDiskTxPos)
      (p : CDiskTxPos) (l2 : List CDiskTxPos),
      readPositions db (CreateIndex o) = l1 ++ p :: l2 →
      1 < (l1 ++ p :: l2).length →
      (∀ q ∈ l1, candidateMatches archive o q = false) →
      candidateMatches archive o p = true →
      (∀ q ∈ l2, candidateMatches archive o q = false) →
      EraseSpenderInfos db archive [o] (CreateIndex o) = .stored (l1 ++ l2) false) ∧
    (∀ (db : DB) (archive : Archive) (o : COutPoint) (rest : List COutPoint),
      1 < (readPositions db (CreateIndex o)).length →
      (∀ q ∈ readPositions db (CreateIndex o), candidateMatches archive o q = false) →
      EraseSpenderInfos db archive (o :: rest) = EraseSpenderInfos db archive rest) := by
  refine ⟨?_, ?_, ?_⟩
  · intro db archive o hlen
    rw [EraseSpenderInfos, eraseSpenderOps_cons, if_neg (by omega)]
    simp [eraseSpenderOps, applyBatch, applyOp]
  · intro db archive o l1 p l2 hrp hlen h1 hp h2
    rw [EraseSpenderInfos, eraseSpenderOps_cons, hrp, if_pos hlen,
      findSpendingIndex_unique archive o l1 p l2 h1 hp h2]
    simp only [eraseIdx_append_cons]
    simp [eraseSpenderOps, applyBatch, applyOp]
  · intro db archive o rest hlen hall
    have hnone : findSpendingIndex archive o (readPositions db (CreateIndex o)) = none :=
      findSpendingIndexAux_of_none _ _ _ _ _ hall
    rw [EraseSpenderInfos, EraseSpenderInfos, eraseSpenderOps_cons, if_pos hlen, hnone]
    rfl

theorem c5_erase_case_analysis_witness :
    EraseSpenderInfos (fun k => if k = 3 then DBVal.stored [⟨0, 0, 1⟩] false else .absent)
      (fun _ => .error "x") [⟨3, 0⟩] (CreateIndex ⟨3, 0⟩) = .absent ∧
    EraseSpenderInfos (fun k => if k = 2 then DBVal.stored [⟨0, 0, 1⟩, ⟨0, 0, 5⟩] false else .absent)
      (fun p => if p = ⟨0, 0, 5⟩ then .ok ⟨7, [⟨2, 0⟩], false, 10⟩ else .error "x")
      [⟨2, 0⟩] (CreateIndex ⟨2, 0⟩) = .stored ([⟨0, 0, 1⟩] ++ []) false ∧
    EraseSpenderInfos (fun k => if k = 4 then DBVal.stored [⟨0, 0, 1⟩, ⟨0, 0, 5⟩] false else .absent)
      (fun _ => .error "x") [⟨4, 0⟩] =
      EraseSpenderInfos (fun k => if k = 4 then DBVal.stored [⟨0, 0, 1⟩, ⟨0, 0, 5⟩] false else .absent)
      (fun _ => .error "x") [] :=
  ⟨c5_erase_case_analysis.1 _ _ ⟨3, 0⟩ (by decide),
   c5_erase_case_analysis.2.1 _ _ ⟨2, 0⟩ [⟨0, 0, 1⟩] ⟨0, 0, 5⟩ []
     (by decide) (by decide) (by decide) (by decide) (by decide),
   c5_erase_case_analysis.2.2 _ _ ⟨4, 0⟩ [] (by decide) (by decide)⟩

theorem readPositions_congr {d1 d2 : DB} {k : Nat} (h : d1 k = d2 k) :
    readPositions d1 k = readPositions d2 k := by
  rw [readPositions, readPositions, dbRead, dbRead, h]

theorem lastOpOn_writeOps_of_present (db : DB) (items : List (COutPoint × CDiskTxPos))
    (k : Nat) (h : ∀ it ∈ items, CreateIndex it.1 = k → it.2 ∈ readPositions db k) :
    lastOpOn (writeSpenderOps db items) k = none := by
  induction items with
  | nil => simp [writeSpenderOps, lastOpOn_nil]
  | cons hd tl ih =>
    obtain ⟨o, p⟩ := hd
    rw [writeSpenderOps_cons, lastOpOn_append,
      ih fun it hit => h it (List.mem_cons_of_mem _ hit)]
    by_cases hk : CreateIndex o = k
    · have hp : p ∈ readPositions db (CreateIndex o) := by
        rw [hk]
        exact h (o, p) (List.mem_cons_self _ _) hk
      simp [hp, lastOpOn_nil]
    · by_cases hp : p ∈ readPositions db (CreateIndex o)
      · simp [hp, lastOpOn_nil]
      · simp [hp, lastOpOn_singleton, opKey, hk]

theorem mem_writeSpenderOps (db : DB) (items : List (COutPoint × CDiskTxPos))
    (op : BatchOp) (hop : op ∈ writeSpenderOps db items) :
    ∃ o p, op = .write (CreateIndex o) (readPositions db (CreateIndex o) ++ [p]) ∧
      p ∉ readPositions db (CreateIndex o) := by
  induction items with
  | nil => simp [writeSpenderOps] at hop
  | cons hd tl ih =>
    obtain ⟨o, p⟩ := hd
    rw [writeSpenderOps_cons] at hop
    rcases List.mem_append.mp hop with h | h
    · by_cases hp : p ∈ readPositions db (CreateIndex o)
      · rw [if_pos hp] at h
        cases h
      · rw [if_neg hp] at h
        exact ⟨o, p, List.mem_singleton.mp h, hp⟩
    · exact ih h

theorem lastOpOn_mem (ops : List BatchOp) (k : Nat) (op : BatchOp)
    (h : lastOpOn ops k = some op) : op ∈ ops :=
  List.mem_reverse.mp (List.mem_of_find?_eq_some h)

theorem readPositions_nodup (db : DB) (k : Nat)
    (h : ∀ l c, db k = .stored l c → l.Nodup) : (readPositions db k).Nodup := by
  cases hk : db k with
  | absent => simp [readPositions, dbRead, hk]
  | stored l c =>
    cases c with
    | false => simpa [readPositions, dbRead, hk] using h l false hk
    | true => simp [readPositions, dbRead, hk]

/-- C4 counterexample: a block whose two transactions spend two outpoints with
colliding bucket keys.  The first append loses the first transaction's locator
(both items read the committed, still-empty bucket), so a second append of the
very same block appends that locator after the fact: the bucket differs after
one and after two appends, hence `CustomAppend` is not idempotent as claimed. -/
theorem c4_counterexample :
    CustomAppend (CustomAppend emptyDB
        ⟨0, 0, [⟨100, [⟨0, 1⟩], false, 10⟩, ⟨200, [⟨1, 0⟩], false, 20⟩]⟩)
        ⟨0, 0, [⟨100, [⟨0, 1⟩], false, 10⟩, ⟨200, [⟨1, 0⟩], false, 20⟩]⟩ 1 ≠
      CustomAppend emptyDB
        ⟨0, 0, [⟨100, [⟨0, 1⟩], false, 10⟩, ⟨200, [⟨1, 0⟩], false, 20⟩]⟩ 1 := by
  decide

/-- C4 amended: appending twice equals appending once provided items of the
block that share a bucket key carry the same locator (in particular whenever no
two distinct transactions of the block spend key-colliding outpoints);
appending a pair whose locator is already stored leaves every bucket unchanged;
and `WriteSpenderInfos` preserves duplicate-freedom of every bucket. -/
theorem c4_append_idempotent_amended :
    (∀ (db : DB) (block : BlockInfo),
      (∀ it1 ∈ customAppendItems block, ∀ it2 ∈ customAppendItems block,
        CreateIndex it1.1 = CreateIndex it2.1 → it1.2 = it2.2) →
      ∀ k, CustomAppend (CustomAppend db block) block k = CustomAppend db block k) ∧
    (∀ (db : DB) (o : COutPoint) (p : CDiskTxPos),
      p ∈ readPositions db (CreateIndex o) →
      ∀ k, WriteSpenderInfos db [(o, p)] k = db k) ∧
    (∀ (db : DB) (items : List (COutPoint × CDiskTxPos)),
      (∀ k2 l c, db k2 = .stored l c → l.Nodup) →
      ∀ k2 l c, WriteSpenderInfos db items k2 = .stored l c → l.Nodup) := by
  refine ⟨?_, ?_, ?_⟩
  · intro db block huniq k
    have hall : ∀ it ∈ customAppendItems block,
        it.2 ∈ readPositions (CustomAppend db block) (CreateIndex it.1) := by
      intro it hit
      obtain ⟨o, p⟩ := it
      rcases exists_last_key (fun it2 => CreateIndex it2.1 = CreateIndex o)
          (customAppendItems block) with hno | ⟨v1, itm, v2, hdec, hkm, hv2⟩
      · exact absurd rfl (hno (o, p) hit)
      obtain ⟨om, pm⟩ := itm
      have hmem : (om, pm) ∈ customAppendItems block := by
        rw [hdec]
        exact List.mem_append_right _ (List.mem_cons_self _ _)
      have hpp : p = pm := huniq (o, p) hit (om, pm) hmem hkm.symm
      have hsplit : writeSpenderOps db (customAppendItems block) =
          writeSpenderOps db v1 ++
            (writeSpenderOps db [(om, pm)] ++ writeSpenderOps db v2) := by
        rw [← writeSpenderOps_append, ← writeSpenderOps_append,
          List.singleton_append, ← hdec]
      have hv2n : lastOpOn (writeSpenderOps db v2) (CreateIndex o) = none :=
        lastOpOn_writeOps_of_not_touched db v2 (CreateIndex o) hv2
      by_cases hpm2 : pm ∈ readPositions db (CreateIndex o)
      · have hnone : lastOpOn (writeSpenderOps db (customAppendItems block))
            (CreateIndex o) = none := by
          apply lastOpOn_writeOps_of_present
          intro it2 hit2 hk2
          have he2 : it2.2 = pm := huniq it2 hit2 (om, pm) hmem (by rw [hk2, hkm])
          rw [he2]
          exact hpm2
        have happ : CustomAppend db block (CreateIndex o) = db (CreateIndex o) := by
          rw [CustomAppend, WriteSpenderInfos, applyBatch_apply, hnone]
        rw [readPositions_congr happ, hpp]
        exact hpm2
      · have hops_om : writeSpenderOps db [(om, pm)] =
            [.write (CreateIndex o) (readPositions db (CreateIndex o) ++ [pm])] := by
          rw [writeSpenderOps_cons]
          simp only at hkm
          rw [hkm, if_neg hpm2]
          rfl
        have hlast : lastOpOn (writeSpenderOps db (customAppendItems block))
            (CreateIndex o) =
            some (.write (CreateIndex o) (readPositions db (CreateIndex o) ++ [pm])) := by
          rw [hsplit, lastOpOn_append, lastOpOn_append, hv2n, hops_om, lastOpOn_singleton]
          simp [opKey]
        have happ : CustomAppend db block (CreateIndex o) =
            .stored (readPositions db (CreateIndex o) ++ [pm]) false := by
          rw [CustomAppend, WriteSpenderInfos, applyBatch_apply, hlast]
        have hrp2 : readPositions (CustomAppend db block) (CreateIndex o) =
            readPositions db (CreateIndex o) ++ [pm] := by
          simp [readPositions, dbRead, happ]
        rw [hrp2, hpp]
        exact List.mem_append_right _ (List.mem_cons_self _ _)
    have hnil : writeSpenderOps (CustomAppend db block) (customAppendItems block) = [] :=
      writeSpenderOps_eq_nil _ _ hall
    show WriteSpenderInfos (CustomAppend db block) (customAppendItems block) k =
      CustomAppend db block k
    rw [WriteSpenderInfos, hnil]
    rfl
  · intro db o p hp k
    rw [WriteSpenderInfos, writeSpenderOps_cons, if_pos hp]
    rfl
  · intro db items hnd k2 l c hstored
    rw [WriteSpenderInfos, applyBatch_apply] at hstored
    cases hlast : lastOpOn (writeSpenderOps db items) k2 with
    | none =>
      rw [hlast] at hstored
      exact hnd k2 l c hstored
    | some op =>
      rw [hlast] at hstored
      cases op with
      | write k3 ps =>
        obtain ⟨o, p, heq, hnp⟩ :=
          mem_writeSpenderOps db items _ (lastOpOn_mem _ _ _ hlast)
        have hps : ps = readPositions db (CreateIndex o) ++ [p] := by
          injection heq with h1 h2
        have hl : l = ps := by
          simp only at hstored
          injection hstored with h1 h2
          exact h1.symm
        rw [hl, hps]
        refine List.Nodup.append ?_ (List.nodup_singleton p) ?_
        · exact readPositions_nodup db (CreateIndex o) fun l2 c2 h2 => hnd _ l2 c2 h2
        · intro x hx hxs
          rw [List.mem_singleton.mp hxs] at hx
          exact hnp hx
      | erase k3 =>
        simp only at hstored
        cases hstored

theorem c4_append_idempotent_amended_witness :
    CustomAppend (CustomAppend emptyDB ⟨0, 0, [⟨100, [⟨0, 1⟩], false, 10⟩]⟩)
        ⟨0, 0, [⟨100, [⟨0, 1⟩], false, 10⟩]⟩ 1 =
      CustomAppend emptyDB ⟨0, 0, [⟨100, [⟨0, 1⟩], false, 10⟩]⟩ 1 :=
  c4_append_idempotent_amended.1 emptyDB ⟨0, 0, [⟨100, [⟨0, 1⟩], false, 10⟩]⟩
    (by decide) 1

/-- C3 counterexample: a state in which the bucket for key 7 already holds the
block's locator (e.g. after a crash-replay of the same block).  The block's
transactions are readable from the archive, yet `Append` is a no-op (the
locator is already present) and `Remove` then erases the single-candidate
record unconditionally, so Append-then-Remove does not restore the pre-Append
contents of the touched bucket. -/
theorem c3_counterexample :
    removeBlock
        (CustomAppend (fun k => if k = 7 then DBVal.stored [⟨0, 0, 1⟩] false else .absent)
          ⟨0, 0, [⟨100, [⟨7, 0⟩], false, 10⟩]⟩)
        (fun p : CDiskTxPos => if p = ⟨0, 0, 1⟩
          then Except.ok (⟨100, [⟨7, 0⟩], false, 10⟩ : Transaction) else .error "x")
        ⟨0, 0, [⟨100, [⟨7, 0⟩], false, 10⟩]⟩ 7 = .absent ∧
    (fun k : Nat => if k = 7 then DBVal.stored [⟨0, 0, 1⟩] false else DBVal.absent) 7 =
      .stored [⟨0, 0, 1⟩] false ∧
    (fun p : CDiskTxPos => if p = ⟨0, 0, 1⟩
      then Except.ok (⟨100, [⟨7, 0⟩], false, 10⟩ : Transaction)
      else .error "x") ⟨0, 0, 1⟩ = .ok ⟨100, [⟨7, 0⟩], false, 10⟩ :=
  ⟨by decide, rfl, rfl⟩

/-- C3 amended: Append-then-Remove restores every bucket key touched by the
block (and leaves all others unchanged) provided the block's archived
transactions are readable as themselves, no touched bucket already holds one of
the block's locators, and every touched bucket is either absent or a readable
non-empty record. -/
theorem c3_append_remove_inverse_amended (db : DB) (archive : Archive)
    (block : BlockInfo)
    (h1 : ∀ it ∈ customAppendItems block,
      ∃ tx, archive it.2 = Except.ok tx ∧ it.1 ∈ tx.vin)
    (h2 : ∀ it ∈ customAppendItems block,
      it.2 ∉ readPositions db (CreateIndex it.1))
    (h3 : ∀ it ∈ customAppendItems block, db (CreateIndex it.1) = .absent ∨
      ∃ l, db (CreateIndex it.1) = .stored l false ∧ l ≠ []) :
    ∀ k, removeBlock (CustomAppend db block) archive block k = db k := by
  intro k
  rcases exists_last_key (fun it => CreateIndex it.1 = k) (customAppendItems block)
      with hno | ⟨v1, itm, v2, hdec, hkm, hv2⟩
  · have hwnone : lastOpOn (writeSpenderOps db (customAppendItems block)) k = none :=
      lastOpOn_writeOps_of_not_touched db _ k hno
    have happ : CustomAppend db block k = db k := by
      rw [CustomAppend, WriteSpenderInfos, applyBatch_apply, hwnone]
    have houts : ∀ o ∈ blockOutpoints block.vtx, CreateIndex o ≠ k := by
      intro o ho
      rw [← map_fst_customAppendItems] at ho
      obtain ⟨it, hit, rfl⟩ := List.mem_map.mp ho
      exact hno it hit
    have hernone : lastOpOn (eraseSpenderOps (CustomAppend db block) archive
        (blockOutpoints block.vtx)) k = none :=
      lastOpOn_eraseOps_of_not_touched _ _ _ k houts
    rw [removeBlock, EraseSpenderInfos, applyBatch_apply, hernone, happ]
  · obtain ⟨om, pm⟩ := itm
    simp only at hkm hv2
    have hmem : (om, pm) ∈ customAppendItems block := by
      rw [hdec]
      exact List.mem_append_right _ (List.mem_cons_self _ _)
    have hpm_not : pm ∉ readPositions db k := by
      have := h2 (om, pm) hmem
      simp only at this
      rwa [hkm] at this
    have hops_om : writeSpenderOps db [(om, pm)] =
        [.write k (readPositions db k ++ [pm])] := by
      rw [writeSpenderOps_cons, hkm, if_neg hpm_not]
      rfl
    have hsplit : writeSpenderOps db (customAppendItems block) =
        writeSpenderOps db v1 ++
          (writeSpenderOps db [(om, pm)] ++ writeSpenderOps db v2) := by
      rw [← writeSpenderOps_append, ← writeSpenderOps_append,
        List.singleton_append, ← hdec]
    have hv2w : lastOpOn (writeSpenderOps db v2) k = none :=
      lastOpOn_writeOps_of_not_touched db v2 k hv2
    have hlastw : lastOpOn (writeSpenderOps db (customAppendItems block)) k =
        some (.write k (readPositions db k ++ [pm])) := by
      rw [hsplit, lastOpOn_append, lastOpOn_append, hv2w, hops_om, lastOpOn_singleton]
      simp [opKey]
    have happ : CustomAppend db block k = .stored (readPositions db k ++ [pm]) false := by
      rw [CustomAppend, WriteSpenderInfos, applyBatch_apply, hlastw]
    have hrp2 : readPositions (CustomAppend db block) k = readPositions db k ++ [pm] := by
      simp [readPositions, dbRead, happ]
    have houts_dec : blockOutpoints block.vtx =
        v1.map Prod.fst ++ om :: v2.map Prod.fst := by
      rw [← map_fst_customAppendItems, hdec]
      simp
    have hv2e : lastOpOn (eraseSpenderOps (CustomAppend db block) archive
        (v2.map Prod.fst)) k = none := by
      apply lastOpOn_eraseOps_of_not_touched
      intro o ho
      obtain ⟨it, hit, rfl⟩ := List.mem_map.mp ho
      exact hv2 it hit
    have hsplit_e : eraseSpenderOps (CustomAppend db block) archive
        (blockOutpoints block.vtx) =
        eraseSpenderOps (CustomAppend db block) archive (v1.map Prod.fst) ++
          (eraseSpenderOps (CustomAppend db block) archive [om] ++
            eraseSpenderOps (CustomAppend db block) archive (v2.map Prod.fst)) := by
      rw [← eraseSpenderOps_append, ← eraseSpenderOps_append,
        List.singleton_append, ← houts_dec]
    obtain ⟨txm, htxm, hvin⟩ := h1 (om, pm) hmem
    have hmatch : candidateMatches archive om pm = true := by
      simp only at htxm hvin
      rw [candidateMatches, ReadTransaction, htxm]
      simpa using hvin
    have hbase_cases := h3 (om, pm) hmem
    simp only at hbase_cases
    rw [hkm] at hbase_cases
    rcases hbase_cases with habs | ⟨l, hst, hlne⟩
    · have hbase : readPositions db k = [] := by
        simp [readPositions, dbRead, habs]
      have hops_e : eraseSpenderOps (CustomAppend db block) archive [om] =
          [.erase k] := by
        rw [eraseSpenderOps_cons, hkm, hrp2, hbase, if_neg (by simp)]
        rfl
      have hlaste : lastOpOn (eraseSpenderOps (CustomAppend db block) archive
          (blockOutpoints block.vtx)) k = some (.erase k) := by
        rw [hsplit_e, lastOpOn_append, lastOpOn_append, hv2e, hops_e, lastOpOn_singleton]
        simp [opKey]
      rw [removeBlock, EraseSpenderInfos, applyBatch_apply, hlaste, habs]
    · have hbase : readPositions db k = l := by
        simp [readPositions, dbRead, hst]
      have hlen : l.length > 0 := List.length_pos.mpr hlne
      have hfind : findSpendingIndex archive om (l ++ [pm]) = some l.length :=
        findSpendingIndex_append_last archive om l pm hmatch
      have herase : (l ++ [pm]).eraseIdx l.length = l := by
        have := eraseIdx_append_cons l pm []
        simpa using this
      have hops_e : eraseSpenderOps (CustomAppend db block) archive [om] =
          [.write k l] := by
        rw [eraseSpenderOps_cons, hkm, hrp2, hbase,
          if_pos (by simp [List.length_append]; omega), hfind]
        simp only [herase]
        rfl
      have hlaste : lastOpOn (eraseSpenderOps (CustomAppend db block) archive
          (blockOutpoints block.vtx)) k = some (.write k l) := by
        rw [hsplit_e, lastOpOn_append, lastOpOn_append, hv2e, hops_e, lastOpOn_singleton]
        simp [opKey]
      rw [removeBlock, EraseSpenderInfos, applyBatch_apply, hlaste, hst]

theorem c3_append_remove_inverse_amended_witness :
    removeBlock (CustomAppend emptyDB ⟨0, 0, [⟨100, [⟨7, 0⟩], false, 10⟩]⟩)
      (fun p => if p = ⟨0, 0, 1⟩ then .ok ⟨100, [⟨7, 0⟩], false, 10⟩ else .error "x")
      ⟨0, 0, [⟨100, [⟨7, 0⟩], false, 10⟩]⟩ 7 = emptyDB 7 := by
  have hitems : customAppendItems ⟨0, 0, [⟨100, [⟨7, 0⟩], false, 10⟩]⟩ =
      [(⟨7, 0⟩, ⟨0, 0, 1⟩)] := by decide
  apply c3_append_remove_inverse_amended emptyDB
    (fun p => if p = ⟨0, 0, 1⟩ then .ok ⟨100, [⟨7, 0⟩], false, 10⟩ else .error "x")
    ⟨0, 0, [⟨100, [⟨7, 0⟩], false, 10⟩]⟩
  · intro it hit
    rw [hitems, List.mem_singleton] at hit
    subst hit
    exact ⟨⟨100, [⟨7, 0⟩], false, 10⟩, rfl, by decide⟩
  · intro it hit
    simp [readPositions, dbRead, emptyDB]
  · intro it hit
    left
    rfl

theorem customRewind_eq_foldl (getBlock : Nat → BlockInfo) (archive : Archive) :
    ∀ current new (db : DB), CustomRewind getBlock archive db current new =
      (rewindHeights current new).foldl
        (fun d h => removeBlock d archive (getBlock h)) db := by
  intro current
  induction current using Nat.strong_induction_on with
  | _ current ih =>
    intro new db
    rw [CustomRewind, rewindHeights]
    by_cases h : current - 1 = new ∨ current = 0
    · rw [if_pos h, if_pos h]
      rfl
    · rw [if_neg h, if_neg h]
      have hlt : current - 1 < current := by omega
      rw [ih _ hlt]
      rfl

theorem rewindHeights_eq (current new : Nat) (hnc : new < current) :
    rewindHeights current new = (List.range' (new + 1) (current - new)).reverse := by
  induction current using Nat.strong_induction_on with
  | _ current ih =>
    rw [rewindHeights]
    by_cases h : current - 1 = new ∨ current = 0
    · rw [if_pos h]
      have hc : current - new = 1 := by omega
      have hc2 : current = new + 1 := by omega
      rw [hc, hc2]
      rfl
    · rw [if_neg h]
      have hlt : current - 1 < current := by omega
      have hnc2 : new < current - 1 := by omega
      rw [ih _ hlt hnc2]
      have hsplit : current - new = (current - 1 - new) + 1 := by omega
      rw [hsplit, List.range'_concat]
      have harg : new + 1 + 1 * (current - 1 - new) = current := by omega
      rw [harg, List.reverse_append]
      rfl

/-- C6: rewinding from the current tip to a strictly lower new tip visits the
heights `current, current - 1, ..., new + 1` in exactly that strictly
decreasing order — starting with the current tip block and stopping before the
new tip, whose height never appears — and `CustomRewind` undoes exactly the
blocks at those heights, one `removeBlock` per visited height in that order. -/
theorem c6_rewind_decreasing_stops_before_new_tip (current new : Nat)
    (h : new < current) :
    rewindHeights current new = (List.range' (new + 1) (current - new)).reverse ∧
    (rewindHeights current new).head? = some current ∧
    (∀ h2 ∈ rewindHeights current new, new < h2 ∧ h2 ≤ current) ∧
    new ∉ rewindHeights current new ∧
    ∀ (getBlock : Nat → BlockInfo) (archive : Archive) (db : DB),
      CustomRewind getBlock archive db current new =
        (rewindHeights current new).foldl
          (fun d h3 => removeBlock d archive (getBlock h3)) db := by
  have he := rewindHeights_eq current new h
  refine ⟨he, ?_, ?_, ?_, fun getBlock archive db => customRewind_eq_foldl _ _ _ _ _⟩
  · have hsplit : current - new = (current - 1 - new) + 1 := by omega
    rw [he, hsplit, List.range'_concat, List.reverse_append]
    have harg : new + 1 + 1 * (current - 1 - new) = current := by omega
    rw [harg]
    rfl
  · intro h2 hh2
    rw [he, List.mem_reverse, List.mem_range'_1] at hh2
    omega
  · intro hmem
    rw [he, List.mem_reverse, List.mem_range'_1] at hmem
    omega

theorem c6_rewind_decreasing_stops_before_new_tip_witness :
    rewindHeights 3 1 = [3, 2] ∧ 1 ∉ rewindHeights 3 1 := by
  have h := c6_rewind_decreasing_stops_before_new_tip 3 1 (by decide)
  exact ⟨h.1.trans (by decide), h.2.2.2.1⟩
